import Mathlib

/-!
A shallow embedding of the ScriptBot frame-matching engine
(src/frame.py, src/script.py) and proofs about it.

Conventions of the embedding:
* Python dicts become insertion-ordered association lists (`Dict α`);
  assignment `d[k] = v` is `dictInsert`, which replaces the value in
  place when the key is present and appends otherwise, exactly as a
  Python dict keeps first-insertion order.
* Untyped Python dict values become `PyVal`: either a string or a
  `FieldFilter` record. This is needed because the buggy
  `Frame.__copy__` stores one-character strings where filters belong.
* External collaborators (the NLTK tokenizer, WordNet synsets,
  lexnames, hypernyms, the POS tagger and the regex engine) are
  abstracted into an `Env` record of functions, mirroring section 6 of
  the specification.
* Fallible Python code (raised exceptions) becomes `Except String`,
  with the message recording the exception kind.
* The recursive `hypernym_search` takes a fuel argument bounding the
  recursion depth; theorems relate it to the reflexive-transitive
  closure of the hypernym relation under a rank function that models a
  finite acyclic ontology.
-/

deriving instance DecidableEq for Except

namespace ScriptBot

/-- Insertion-ordered association list modelling a Python dict. -/
abbrev Dict (α : Type) := List (String × α)

/-- Python dict lookup: the value stored at key k, if any. -/
def dictGet {α : Type} (d : Dict α) (k : String) : Option α :=
  match d with
  | [] => none
  | (k', v) :: rest => if k' = k then some v else dictGet rest k

/-- Python membership test on a dict. -/
def dictHas {α : Type} (d : Dict α) (k : String) : Bool :=
  (dictGet d k).isSome

/-- Python dict assignment d[k] = v: replace in place if the key is
present (keeping first-insertion order), append otherwise. -/
def dictInsert {α : Type} (d : Dict α) (k : String) (v : α) : Dict α :=
  match d with
  | [] => [(k, v)]
  | (k', v') :: rest =>
    if k' = k then (k, v) :: rest else (k', v') :: dictInsert rest k v

/-- The keys of a dict, in order. -/
def dictKeys {α : Type} (d : Dict α) : List String :=
  d.map Prod.fst

/-- Frame.FieldFilter (src/frame.py lines 37 to 106): the four optional
restrictions parsed from a field tag. A value of none is a wildcard. -/
structure FieldFilter where
  lexical : Option String
  semantic : Option (List String)
  pos : Option (List String)
  pattern : Option String
deriving Repr, DecidableEq

/-- An untyped Python dict value: the fields dict of a Frame holds
FieldFilter objects, but the buggy copy puts strings there, and the
bindings dict holds strings. -/
inductive PyVal where
  | vStr : String → PyVal
  | vFilter : FieldFilter → PyVal
deriving Repr, DecidableEq

/-- Frame (src/frame.py lines 202 to 205): a name, a fields dict and a
bindings dict. In the source both dicts are untyped, hence PyVal. -/
structure Frame where
  name : String
  fields : Dict PyVal
  bindings : Dict PyVal
deriving Repr, DecidableEq

/-- Frame.__init__: a fresh frame has empty fields and bindings. -/
def Frame.init (name : String) : Frame :=
  ⟨name, [], []⟩

/-- Type alias matching FrameStorage in src/frame.py line 237. -/
abbrev FrameStorage := Dict Frame

/-- Python truthiness of an optional string: None and the empty string
are falsy. Models the guards such as the one on self.pattern. -/
def pyTruthy : Option String → Bool
  | none => false
  | some s => s ≠ ""

/-- Python truthiness of an optional list: None and the empty list are
falsy. Models the guards on self.semantic and self.pos. -/
def pyTruthyL : Option (List String) → Bool
  | none => false
  | some l => l ≠ []

/-- The external collaborators consumed through narrow interfaces:
tokenizer, WordNet and friends. Senses are numeric identifiers. -/
structure Env where
  tokenize : String → List String
  synsets : String → List Nat
  lexname : Nat → String
  senseName : Nat → String
  hypernyms : Nat → List Nat
  posTag : String → String
  reMatch : String → String → Bool

/-- FieldFilter.word_match (src/frame.py lines 72 to 88): the pattern
restriction, then the part-of-speech restriction, conjunctively. -/
def FieldFilter.word_match (env : Env) (f : FieldFilter) (word : String) : Bool :=
  if pyTruthy f.pattern && !(env.reMatch (f.pattern.getD "") word) then false
  else if pyTruthyL f.pos && !((f.pos.getD []).contains (env.posTag word)) then false
  else true

/-- The index of the last dot in a character list, if any; models the
Python str.rfind call used by sense_match. -/
def lastDotIdx : List Char → Option Nat
  | [] => none
  | c :: rest =>
    match lastDotIdx rest with
    | some i => some (i + 1)
    | none => if c = '.' then some 0 else none

/-- The slice s up to s.rfind of a dot, as sense_match computes it.
When there is no dot, rfind gives minus one and the Python slice drops
the last character. -/
def nameBeforeLastDot (s : String) : String :=
  match lastDotIdx s.data with
  | some i => ⟨s.data.take i⟩
  | none => ⟨s.data.take (s.data.length - 1)⟩

/-- FieldFilter.sense_match (src/frame.py lines 90 to 106): the lexical
restriction against the lexname of the sense, then the semantic
restriction against the sense name cut at its last dot. -/
def FieldFilter.sense_match (env : Env) (f : FieldFilter) (sense : Nat) : Bool :=
  if pyTruthy f.lexical && !(env.lexname sense == f.lexical.getD "") then false
  else if pyTruthyL f.semantic
      && !((f.semantic.getD []).any (fun s => nameBeforeLastDot (env.senseName sense) == s)) then
    false
  else true

/-- Response.hypernym_search (src/script.py lines 100 to 116), with a
fuel argument bounding the recursion depth. With fuel exceeding the
rank of the sense in a finite acyclic ontology the value agrees with
the Python recursion; at fuel zero the model returns false. -/
def hypernym_search (env : Env) (fltr : FieldFilter) : Nat → Nat → Bool
  | 0, _ => false
  | fuel + 1, sense =>
    if fltr.sense_match env sense then true
    else (env.hypernyms sense).foldl (fun m hp => m || hypernym_search env fltr fuel hp) false

/-- Unpacking a Python string into two variables, as the statement
written for key and value pairs does to each KEY in Frame.__copy__:
it succeeds only for strings of exactly two characters. -/
def strUnpack2 (s : String) : Except String (String × String) :=
  match s.data with
  | [a, b] => .ok (⟨[a]⟩, ⟨[b]⟩)
  | _ => .error "ValueError: unpack"

/-- The dict comprehension in Frame.__copy__ (src/frame.py lines 221
and 222). Iterating a dict yields its keys, so each key is unpacked
into two one-character strings and the values are dropped. -/
def dictUnpackCopyAux (acc : Dict PyVal) : Dict PyVal → Except String (Dict PyVal)
  | [] => .ok acc
  | (k, _) :: rest =>
    match strUnpack2 k with
    | .error e => .error e
    | .ok (a, b) => dictUnpackCopyAux (dictInsert acc a (.vStr b)) rest

/-- The full comprehension, starting from an empty dict. -/
def dictUnpackCopy (d : Dict PyVal) : Except String (Dict PyVal) :=
  dictUnpackCopyAux [] d

/-- Frame.__copy__ (src/frame.py lines 215 to 224): fields first, then
bindings, both through the key-unpacking comprehension. -/
def Frame.copy (f : Frame) : Except String Frame :=
  match dictUnpackCopy f.fields with
  | .error e => .error e
  | .ok fs =>
    match dictUnpackCopy f.bindings with
    | .error e => .error e
    | .ok bs => .ok ⟨f.name, fs, bs⟩

/-- Frame.has (src/frame.py lines 178 to 185) on an explicit registry
standing for the module-level frames dict. -/
def Frame.has (reg : FrameStorage) (item : String) : Bool :=
  dictHas reg item

/-- Frame.get (src/frame.py lines 166 to 176): KeyError when absent,
otherwise the stored template is copied by Frame.__copy__. -/
def Frame.get (reg : FrameStorage) (item : String) : Except String Frame :=
  match dictGet reg item with
  | none => .error "KeyError: Frame not found."
  | some f => f.copy

/-- Frame.store (src/frame.py lines 187 to 196) as a state-passing
function: the result of the call and the registry afterwards. On a
duplicate name a KeyError is raised before any mutation. -/
def Frame.store (reg : FrameStorage) (item : Frame) : Except String Unit × FrameStorage :=
  if dictHas reg item.name then (.error "KeyError: Duplicate frame", reg)
  else (.ok (), dictInsert reg item.name item)

/-- Response (src/script.py lines 24 to 31): the frame names to
realize, the action string and the transfer flag. -/
structure Response where
  to_realize : List String
  action : String
  transfer : Bool
deriving Repr, DecidableEq

/-- The loop over senses in Response.satisfy (src/script.py lines 77
to 85): the first sense that matches directly or through a hypernym
search ends the loop with a match. -/
def senseLoop (env : Env) (fuel : Nat) (fltr : FieldFilter) (senses : List Nat) : Bool :=
  senses.any (fun s => fltr.sense_match env s || hypernym_search env fltr fuel s)

/-- The body of the field loop in Response.satisfy (src/script.py
lines 60 to 89) for one word against one field of one frame. The
fields dict is untyped, so on a string value the word_match call
raises AttributeError, which is what happens to every frame produced
by the buggy Frame.__copy__. -/
def fieldStep (env : Env) (fuel : Nat) (word : String) (f : Frame)
    (field : String) (fltr : PyVal) : Except String Frame :=
  match fltr with
  | .vStr _ => .error "AttributeError: word_match"
  | .vFilter fl =>
    if !(fl.word_match env word) then .ok f
    else
      let senses := env.synsets word
      let any_match :=
        if !(pyTruthy fl.lexical) && !(pyTruthyL fl.semantic) then true
        else if senses.isEmpty then false
        else senseLoop env fuel fl senses
      if any_match then .ok { f with bindings := dictInsert f.bindings field (.vStr word) }
      else .ok f

/-- The loop over the fields of one frame for one word; the iterator
Frame.frame_iterator yields the items of the fields dict, which the
loop body never mutates. -/
def fieldLoop (env : Env) (fuel : Nat) (word : String) (g : Frame) :
    List (String × PyVal) → Except String Frame
  | [] => .ok g
  | (field, fltr) :: rest =>
    match fieldStep env fuel word g field fltr with
    | .error e => .error e
    | .ok g' => fieldLoop env fuel word g' rest

/-- One word against one frame: iterate over the frame fields. -/
def frameStep (env : Env) (fuel : Nat) (word : String) (f : Frame) : Except String Frame :=
  fieldLoop env fuel word f f.fields

/-- One word against every realized frame in order (src/script.py
line 59). -/
def framesStep (env : Env) (fuel : Nat) (word : String) :
    List Frame → Except String (List Frame)
  | [] => .ok []
  | f :: rest =>
    match frameStep env fuel word f with
    | .error e => .error e
    | .ok f' =>
      match framesStep env fuel word rest with
      | .error e => .error e
      | .ok rest' => .ok (f' :: rest')

/-- The token loop of Response.satisfy (src/script.py lines 57 to 89):
each token is matched against every frame, mutating bindings. -/
def processTokens (env : Env) (fuel : Nat) :
    List String → List Frame → Except String (List Frame)
  | [], frames => .ok frames
  | w :: ws, frames =>
    match framesStep env fuel w frames with
    | .error e => .error e
    | .ok frames' => processTokens env fuel ws frames'

/-- The body of the realization loop in Response.satisfy (src/script.py
lines 42 to 46) for one name: a fresh copy of the global template is
appended when the name is registered, and the local instance is
appended when the name is in local knowledge. Both tests run; neither
excludes the other. -/
def resolveName (reg : FrameStorage) (loc : FrameStorage) (n : String) :
    Except String (List Frame) :=
  match (if Frame.has reg n then
          match Frame.get reg n with
          | .error e => .error e
          | .ok c => .ok [c]
        else .ok [] : Except String (List Frame)) with
  | .error e => .error e
  | .ok g =>
    match dictGet loc n with
    | some lf => .ok (g ++ [lf])
    | none => .ok g

/-- The whole realization loop over to_realize. -/
def realizeFrames (reg : FrameStorage) (loc : FrameStorage) :
    List String → Except String (List Frame)
  | [] => .ok []
  | n :: ns =>
    match resolveName reg loc n with
    | .error e => .error e
    | .ok here =>
      match realizeFrames reg loc ns with
      | .error e => .error e
      | .ok rest => .ok (here ++ rest)

/-- The numerator of the satisfaction ratio (src/script.py lines 94
and 95): bound values are words and never None, so each frame
contributes the size of its bindings dict. -/
def satCount (frames : List Frame) : Nat :=
  (frames.map (fun f => f.bindings.length)).sum

/-- The denominator of the satisfaction ratio (src/script.py line 93):
the total field count over all realized frames. -/
def totalFields (frames : List Frame) : Nat :=
  (frames.map (fun f => f.fields.length)).sum

/-- The dict comprehension keyed by frame name on src/script.py line
98: frames realized later overwrite earlier ones under the same name. -/
def framesToStorage (frames : List Frame) : FrameStorage :=
  frames.foldl (fun d f => dictInsert d f.name f) []

/-- Response.satisfy (src/script.py lines 33 to 98): realize the
frames, run the token loop, then divide bound count by total field
count. The division raises ZeroDivisionError when the total is zero. -/
def Response.satisfy (env : Env) (fuel : Nat) (reg : FrameStorage) (resp : Response)
    (answer : String) (loc : FrameStorage) : Except String (ℚ × FrameStorage) :=
  match realizeFrames reg loc resp.to_realize with
  | .error e => .error e
  | .ok frames =>
    match processTokens env fuel (env.tokenize answer) frames with
    | .error e => .error e
    | .ok frames' =>
      if totalFields frames' = 0 then .error "ZeroDivisionError: float division by zero"
      else .ok (((satCount frames' : ℚ) / (totalFields frames' : ℚ)), framesToStorage frames')

/-- A whitespace character, as the regex class backslash-s. -/
def isWs (c : Char) : Bool :=
  c.isWhitespace

/-- A character of the reference body: the regex class of ASCII
letters, dot and underscore used in the slot pattern of Line.say. -/
def isRefChar (c : Char) : Bool :=
  c.isAlpha || c = '.' || c = '_'

/-- Whether the slot pattern of Line.say (src/script.py line 142), an
optional whitespace then a dollar sign then one or more reference
characters, matches at the head of the character list; the value is
the length of the greedy match. A whitespace not followed by a dollar
sign and a body character backtracks to no match, as the regex does. -/
def matchAt : List Char → Option Nat
  | [] => none
  | c :: rest =>
    if isWs c then
      match rest with
      | '$' :: rest2 =>
        let n := (rest2.takeWhile isRefChar).length
        if n = 0 then none else some (n + 2)
      | _ => none
    else if c = '$' then
      let n := (rest.takeWhile isRefChar).length
      if n = 0 then none else some (n + 1)
    else none

/-- The scan of re.finditer over the line text: try the pattern at
each position, emit the span of each match and resume after its end.
The skip counter carries how many already-consumed characters of the
current match remain to be passed over. -/
def findSlotsAux : List Char → Nat → Nat → List (Nat × Nat)
  | [], _, _ => []
  | _ :: rest, i, skip + 1 => findSlotsAux rest (i + 1) skip
  | c :: rest, i, 0 =>
    match matchAt (c :: rest) with
    | some n => (i, i + n) :: findSlotsAux rest (i + 1) (n - 1)
    | none => findSlotsAux rest (i + 1) 0

/-- All slot spans of a line, as start and end offsets. -/
def findSlots (cs : List Char) : List (Nat × Nat) :=
  findSlotsAux cs 0 0

/-- The Python slice t from a to b over a character list. -/
def pySlice (cs : List Char) (a b : Nat) : List Char :=
  (cs.take b).drop a

/-- Python str.strip with the two characters dollar and space: drop
them from both ends, as the ref parsing of Line.say line 150 does. -/
def stripDollarSpace (s : String) : String :=
  let p := fun c => c = '$' || c = ' '
  ⟨((s.data.dropWhile p).reverse.dropWhile p).reverse⟩

/-- Python str.split with a dot separator: empty pieces are kept, the
empty string yields one empty piece. -/
def splitDotAux (cur : List Char) : List Char → List String
  | [] => [⟨cur.reverse⟩]
  | c :: rest =>
    if c = '.' then ⟨cur.reverse⟩ :: splitDotAux [] rest
    else splitDotAux (c :: cur) rest

/-- Python str.split on a dot over a string. -/
def splitDot (s : String) : List String :=
  splitDotAux [] s.data

/-- The ref parsing of one slot (src/script.py line 150): slice the
span out of the text, strip dollar and space, split on dots and drop
empty pieces. -/
def refOf (cs : List Char) (slot : Nat × Nat) : List String :=
  (splitDot (stripDollarSpace ⟨pySlice cs slot.1 slot.2⟩)).filter (fun x => x ≠ "")

/-- The tuple unpacking in the loop over refs (src/script.py line
152): every ref must have exactly a name and a field. -/
def unpackPairs : List (List String) → Except String (List (String × String))
  | [] => .ok []
  | [n, f] :: rest =>
    match unpackPairs rest with
    | .error e => .error e
    | .ok r => .ok ((n, f) :: r)
  | _ :: _ => .error "ValueError: unpack ref"

/-- The plug lookup for one ref (src/script.py lines 152 to 158): the
local store first when it is truthy and has the name, then a copy of
the global frame, else a ValueError. A missing binding raises
KeyError; a non-string binding value cannot be concatenated. -/
def getPlug (reg : FrameStorage) (loc : FrameStorage) (nf : String × String) :
    Except String String :=
  match (if loc.isEmpty then none else dictGet loc nf.1) with
  | some lf =>
    match dictGet lf.bindings nf.2 with
    | some (.vStr s) => .ok s
    | some (.vFilter _) => .error "TypeError: plug"
    | none => .error "KeyError: binding"
  | none =>
    if Frame.has reg nf.1 then
      match Frame.get reg nf.1 with
      | .error e => .error e
      | .ok fr =>
        match dictGet fr.bindings nf.2 with
        | some (.vStr s) => .ok s
        | some (.vFilter _) => .error "TypeError: plug"
        | none => .error "KeyError: binding"
    else .error "ValueError: Required frame has not been learned!"

/-- All plugs in order. -/
def getPlugs (reg : FrameStorage) (loc : FrameStorage) :
    List (String × String) → Except String (List String)
  | [] => .ok []
  | p :: rest =>
    match getPlug reg loc p with
    | .error e => .error e
    | .ok v =>
      match getPlugs reg loc rest with
      | .error e => .error e
      | .ok vs => .ok (v :: vs)

/-- The reconstruction loop of Line.say (src/script.py lines 160 to
165): for each slot, take the text from the cursor through the slot
start position inclusive, append the plug, and move the cursor to one
past the slot end. -/
def renderLoop (cs : List Char) : List ((Nat × Nat) × String) → Nat → String
  | [], _ => ""
  | (slot, plug) :: rest, cursor =>
    ⟨pySlice cs cursor (slot.1 + 1)⟩ ++ plug ++ renderLoop cs rest (slot.2 + 1)

/-- The end offset of the last slot, used by the final append on
src/script.py line 166. -/
def lastStop : List (Nat × Nat) → Nat
  | [] => 0
  | [slot] => slot.2
  | _ :: rest => lastStop rest

/-- Line.say (src/script.py lines 134 to 168), returning the emitted
string instead of printing it. A line with no slots is emitted as is. -/
def Line.say (reg : FrameStorage) (text : String) (loc : FrameStorage) :
    Except String String :=
  match findSlots text.data with
  | [] => .ok text
  | slot :: slots =>
    match unpackPairs ((slot :: slots).map (refOf text.data)) with
    | .error e => .error e
    | .ok pairs =>
      match getPlugs reg loc pairs with
      | .error e => .error e
      | .ok plugs =>
        .ok (renderLoop text.data ((slot :: slots).zip plugs) 0
          ++ ⟨text.data.drop (lastStop (slot :: slots))⟩)

/-- The reflexive-transitive closure of the hypernym relation of an
environment: the ancestors of a sense, itself included. -/
inductive Reaches (env : Env) : Nat → Nat → Prop
  | refl (s : Nat) : Reaches env s s
  | step {s h t : Nat} : h ∈ env.hypernyms s → Reaches env h t → Reaches env s t

/-- The data model invariant of the specification: the keys of the
bindings dict are a subset of the keys of the fields dict. -/
def FrameInv (f : Frame) : Prop :=
  ∀ k, k ∈ dictKeys f.bindings → k ∈ dictKeys f.fields

/-- What one pass of the matching loop does to a frame: name and
fields untouched, binding keys only grow, and the subset invariant is
preserved. -/
def FramePres (f f' : Frame) : Prop :=
  f'.name = f.name ∧ f'.fields = f.fields
    ∧ (∀ k, k ∈ dictKeys f.bindings → k ∈ dictKeys f'.bindings)
    ∧ (FrameInv f → FrameInv f')

/-- The binding assignment of the field elicitation sub-dialogue in
Script.execute (src/script.py line 333): the acquired value is applied
to the field under elicitation, which the enclosing loop draws from
the items of the fields dict. -/
def elicitBind (f : Frame) (field : String) (v : PyVal) : Frame :=
  { f with bindings := dictInsert f.bindings field v }

/-! Concrete fixtures used by the counterexamples and witnesses. -/

/-- A field filter with every restriction absent: a wildcard. -/
def wildFilter : FieldFilter :=
  ⟨none, none, none, none⟩

/-- An environment whose tokenizer always yields the two words red and
blue and whose word-level collaborators are trivial. -/
def envRB : Env :=
  ⟨fun _ => ["red", "blue"], fun _ => [], fun _ => "", fun _ => "",
   fun _ => [], fun _ => "", fun _ _ => true⟩

/-- A local pet frame with a single unrestricted color field and no
bindings yet. -/
def petColor : Frame :=
  ⟨"pet", [("color", .vFilter wildFilter)], []⟩

/-- A pet template whose single field name species has seven
characters, so the copy in Frame.get cannot unpack it. -/
def petSpecies : Frame :=
  ⟨"pet", [("species", .vFilter wildFilter)], []⟩

/-- A pet template whose single field name has two characters, so the
buggy copy succeeds but mangles the field into one-character strings. -/
def petAB : Frame :=
  ⟨"pet", [("ab", .vFilter wildFilter)], []⟩

/-- What the buggy copy makes of the petAB template. -/
def petABCopy : Frame :=
  ⟨"pet", [("a", .vStr "b")], []⟩

/-- A local pet frame holding a bound species, for the rendering
witness. -/
def petBound : Frame :=
  ⟨"pet", [], [("species", .vStr "cat")]⟩

/-- An environment whose tokenizer yields no tokens at all. -/
def envNoTok : Env :=
  ⟨fun _ => [], fun _ => [], fun _ => "", fun _ => "",
   fun _ => [], fun _ => "", fun _ _ => true⟩

/-- A two-sense ontology for the hypernym witnesses: sense zero has
the single hypernym one, which is a root; sense one carries the
lexname target, sense zero the lexname other. -/
def envChain : Env :=
  ⟨fun _ => [], fun _ => [], fun s => if s = 1 then "target" else "other",
   fun _ => "", fun s => if s = 0 then [1] else [], fun _ => "", fun _ _ => true⟩

/-- A two-sense ontology in which no sense carries the target
lexname. -/
def envChainMiss : Env :=
  ⟨fun _ => [], fun _ => [], fun _ => "other",
   fun _ => "", fun s => if s = 0 then [1] else [], fun _ => "", fun _ _ => true⟩

/-- A filter whose only restriction is the lexname target. -/
def targetFilter : FieldFilter :=
  ⟨some "target", none, none, none⟩

/-- The rank function certifying that the two-sense ontology is
finite and acyclic: the hypernym of a sense has a smaller rank. -/
def chainRank (s : Nat) : Nat :=
  if s = 0 then 1 else 0

/-- The pet frame with its color field bound to red. -/
def petRed : Frame :=
  ⟨"pet", [("color", .vFilter wildFilter)], [("color", .vStr "red")]⟩

/-- The pet frame with its color field bound to blue. -/
def petBlue : Frame :=
  ⟨"pet", [("color", .vFilter wildFilter)], [("color", .vStr "blue")]⟩

/-! General lemmas about the dict model and the matching loop. -/

theorem dictGet_insert_self {α : Type} (d : Dict α) (k : String) (v : α) :
    dictGet (dictInsert d k v) k = some v := by
  induction d with
  | nil => simp [dictInsert, dictGet]
  | cons kv rest ih =>
    obtain ⟨k', v'⟩ := kv
    by_cases h : k' = k
    · simp [dictInsert, h, dictGet]
    · simp [dictInsert, h, dictGet, ih]

theorem mem_keys_insert {α : Type} {d : Dict α} {k k' : String} {v : α} :
    k' ∈ dictKeys (dictInsert d k v) ↔ k' = k ∨ k' ∈ dictKeys d := by
  induction d with
  | nil => simp [dictInsert, dictKeys]
  | cons kv rest ih =>
    obtain ⟨k1, v1⟩ := kv
    by_cases h : k1 = k
    · subst h
      simp [dictInsert, dictKeys]
    · simp [dictInsert, h, dictKeys] at *
      tauto

theorem fieldStep_ok {env : Env} {fuel : Nat} {word : String} {f : Frame}
    {field : String} {fltr : PyVal} {f' : Frame}
    (h : fieldStep env fuel word f field fltr = .ok f') :
    f'.name = f.name ∧ f'.fields = f.fields
      ∧ (f'.bindings = f.bindings
         ∨ f'.bindings = dictInsert f.bindings field (.vStr word)) := by
  unfold fieldStep at h
  cases fltr with
  | vStr s => simp at h
  | vFilter fl =>
    by_cases hw : fl.word_match env word
    · simp [hw] at h
      split at h
      · cases h
        exact ⟨rfl, rfl, Or.inr rfl⟩
      · cases h
        exact ⟨rfl, rfl, Or.inl rfl⟩
    · simp [hw] at h
      cases h
      exact ⟨rfl, rfl, Or.inl rfl⟩

theorem fieldLoop_ok {env : Env} {fuel : Nat} {word : String} :
    ∀ (l : List (String × PyVal)) (g g' : Frame),
      fieldLoop env fuel word g l = .ok g' →
      g'.name = g.name ∧ g'.fields = g.fields
        ∧ (∀ k, k ∈ dictKeys g'.bindings → k ∈ dictKeys g.bindings ∨ k ∈ l.map Prod.fst)
        ∧ (∀ k, k ∈ dictKeys g.bindings → k ∈ dictKeys g'.bindings) := by
  intro l
  induction l with
  | nil =>
    intro g g' h
    simp [fieldLoop] at h
    subst h
    exact ⟨rfl, rfl, fun k hk => Or.inl hk, fun k hk => hk⟩
  | cons p rest ih =>
    intro g g' h
    obtain ⟨field, fltr⟩ := p
    unfold fieldLoop at h
    cases hs : fieldStep env fuel word g field fltr with
    | error e => rw [hs] at h; simp at h
    | ok g1 =>
      rw [hs] at h
      simp at h
      obtain ⟨hn, hf, hsub, hmono⟩ := ih g1 g' h
      obtain ⟨hn1, hf1, hb1⟩ := fieldStep_ok hs
      refine ⟨hn.trans hn1, hf.trans hf1, ?_, ?_⟩
      · intro k hk
        rcases hsub k hk with hk1 | hk1
        · rcases hb1 with hb | hb
          · rw [hb] at hk1
            exact Or.inl hk1
          · rw [hb] at hk1
            rcases mem_keys_insert.mp hk1 with rfl | hk2
            · exact Or.inr (by simp)
            · exact Or.inl hk2
        · exact Or.inr (by simp [hk1])
      · intro k hk
        apply hmono
        rcases hb1 with hb | hb
        · rw [hb]; exact hk
        · rw [hb]; exact mem_keys_insert.mpr (Or.inr hk)

theorem frameStep_pres {env : Env} {fuel : Nat} {word : String} {f f' : Frame}
    (h : frameStep env fuel word f = .ok f') : FramePres f f' := by
  obtain ⟨hn, hf, hsub, hmono⟩ := fieldLoop_ok f.fields f f' h
  refine ⟨hn, hf, hmono, ?_⟩
  intro hinv k hk
  rw [hf]
  rcases hsub k hk with hk1 | hk1
  · exact hinv k hk1
  · exact hk1

theorem framesStep_pres {env : Env} {fuel : Nat} {word : String} :
    ∀ {fs fs' : List Frame}, framesStep env fuel word fs = .ok fs' →
      List.Forall₂ FramePres fs fs' := by
  intro fs
  induction fs with
  | nil =>
    intro fs' h
    simp [framesStep] at h
    subst h
    exact List.Forall₂.nil
  | cons f rest ih =>
    intro fs' h
    unfold framesStep at h
    cases h1 : frameStep env fuel word f with
    | error e => rw [h1] at h; simp at h
    | ok f1 =>
      rw [h1] at h
      cases h2 : framesStep env fuel word rest with
      | error e => rw [h2] at h; simp at h
      | ok rest1 =>
        rw [h2] at h
        simp at h
        subst h
        exact List.Forall₂.cons (frameStep_pres h1) (ih h2)

theorem framePres_refl (f : Frame) : FramePres f f :=
  ⟨rfl, rfl, fun _ h => h, id⟩

theorem framePres_trans {a b c : Frame} (h1 : FramePres a b) (h2 : FramePres b c) :
    FramePres a c := by
  obtain ⟨n1, f1, s1, i1⟩ := h1
  obtain ⟨n2, f2, s2, i2⟩ := h2
  exact ⟨n2.trans n1, f2.trans f1, fun k hk => s2 k (s1 k hk), fun h => i2 (i1 h)⟩

theorem forall2_framePres_trans :
    ∀ {a b c : List Frame}, List.Forall₂ FramePres a b →
      List.Forall₂ FramePres b c → List.Forall₂ FramePres a c := by
  intro a b c h1
  induction h1 generalizing c with
  | nil =>
    intro h2
    cases h2
    exact List.Forall₂.nil
  | cons hab h1' ih =>
    intro h2
    cases h2 with
    | cons hbc h2' => exact List.Forall₂.cons (framePres_trans hab hbc) (ih h2')

theorem processTokens_pres {env : Env} {fuel : Nat} :
    ∀ {ws : List String} {fs fs' : List Frame},
      processTokens env fuel ws fs = .ok fs' → List.Forall₂ FramePres fs fs' := by
  intro ws
  induction ws with
  | nil =>
    intro fs fs' h
    simp [processTokens] at h
    subst h
    exact List.forall₂_same.mpr (fun x _ => framePres_refl x)
  | cons w ws ih =>
    intro fs fs' h
    unfold processTokens at h
    cases h1 : framesStep env fuel w fs with
    | error e => rw [h1] at h; simp at h
    | ok fs1 =>
      rw [h1] at h
      exact forall2_framePres_trans (framesStep_pres h1) (ih h)

/-- C1. The claim says a satisfy call whose realized frames have zero
total fields returns ratio one; in the source the division sat divided
by total is executed unconditionally and raises ZeroDivisionError,
both when no frame is realized and when a realized frame has no
fields. -/
theorem c1_zero_total_fields_raises :
    Response.satisfy envRB 0 [] ⟨["pet"], "continue", false⟩ "anything at all" []
      = .error "ZeroDivisionError: float division by zero"
    ∧ Response.satisfy envRB 0 [] ⟨["pet"], "continue", false⟩ "red blue"
        [("pet", Frame.init "pet")]
      = .error "ZeroDivisionError: float division by zero" :=
  ⟨rfl, rfl⟩

/-- C2 counterexample. With one unrestricted color field, the token
red binds first, yet processing the later token blue replaces the
binding: the final satisfy result holds blue, so the first successful
binding does not win. -/
theorem c2_overwrite_cex :
    processTokens envRB 0 ["red"] [petColor]
      = .ok [⟨"pet", [("color", .vFilter wildFilter)], [("color", .vStr "red")]⟩]
    ∧ processTokens envRB 0 ["red", "blue"] [petColor]
      = .ok [⟨"pet", [("color", .vFilter wildFilter)], [("color", .vStr "blue")]⟩]
    ∧ ∃ q, Response.satisfy envRB 0 [] ⟨["pet"], "continue", false⟩ "red blue"
        [("pet", petColor)]
      = .ok (q, [("pet", ⟨"pet", [("color", .vFilter wildFilter)], [("color", .vStr "blue")]⟩)]) :=
  ⟨rfl, rfl, ⟨_, rfl⟩⟩

/-- C3 counterexample. When the name pet is registered globally and
also present locally, the realization loop appends a fresh copy of
the template AND the local instance: two frames, not exactly one. -/
theorem c3_two_instances_cex :
    realizeFrames [("pet", Frame.init "pet")] [("pet", petColor)] ["pet"]
      = .ok [Frame.init "pet", petColor] :=
  rfl

/-- C4. Frame.get on a registered template with a seven-character
field name raises ValueError instead of returning a copy, because the
comprehension in Frame.__copy__ iterates the keys of the fields dict
and unpacks each key into two variables; and even on a two-character
field name the returned frame has mangled one-character fields, not
the fields of the template. -/
theorem c4_get_copy_value_error :
    Frame.get [("pet", petSpecies)] "pet" = .error "ValueError: unpack"
    ∧ Frame.copy ⟨"pet", [("ab", .vFilter wildFilter)], []⟩
      = .ok ⟨"pet", [("a", .vStr "b")], []⟩ :=
  ⟨rfl, rfl⟩

/-- C5 counterexample. A line with two slot references loses the
character that immediately follows the first reference: the space
after the species slot is skipped by the cursor, so the rendering is
not an exact substitution. -/
theorem c5_dropped_character_cex :
    Line.say [] "I like $pet.species and $pet.color"
        [("pet", ⟨"pet", [], [("species", .vStr "cats"), ("color", .vStr "black")]⟩)]
      = .ok "I like catsand black" :=
  rfl

/-- C10 counterexample. With the name pet both registered globally and
present locally, satisfy does not return a ratio whose denominator
counts the fields twice: the copy of the template raises ValueError
inside the realization loop, so the whole call fails. -/
theorem c10_copy_bug_cex :
    Response.satisfy envRB 0 [("pet", petSpecies)] ⟨["pet"], "continue", false⟩
        "x" [("pet", petColor)]
      = .error "ValueError: unpack" :=
  rfl

/-- C2 amended. Within the matching loop of a satisfy call, a frame
binding is never removed: the set of bound field keys of every
realized frame only grows as tokens are processed. (A later token may
overwrite the bound value, as the counterexample shows: the last
successful binding wins, not the first.) -/
theorem c2_binding_keys_monotone (env : Env) (fuel : Nat) (ws : List String)
    (fs fs' : List Frame) (h : processTokens env fuel ws fs = .ok fs') :
    List.Forall₂ (fun f f' => ∀ k, k ∈ dictKeys f.bindings → k ∈ dictKeys f'.bindings)
      fs fs' := by
  refine List.Forall₂.imp ?_ (processTokens_pres h)
  intro a b hab
  obtain ⟨_, _, hs, _⟩ := hab
  exact hs

/-- Witness for C2 amended: a concrete run of the token loop on a
frame with a pre-existing binding; the key survives (its value is
overwritten). -/
theorem c2_binding_keys_monotone_witness :
    List.Forall₂ (fun f f' => ∀ k, k ∈ dictKeys f.bindings → k ∈ dictKeys f'.bindings)
      [petRed] [petBlue] :=
  c2_binding_keys_monotone envRB 0 ["blue"] [petRed] [petBlue] rfl

/-- C8. Every mutation of a frame bindings dict preserves the subset
invariant: the token-matching loop of Response.satisfy preserves it
for every realized frame, the field-elicitation assignment of
Script.execute preserves it for any field drawn from the fields dict,
and a freshly constructed frame satisfies it with empty bindings. -/
theorem c8_bindings_subset_invariant :
    (∀ (env : Env) (fuel : Nat) (ws : List String) (fs fs' : List Frame),
        processTokens env fuel ws fs = .ok fs' →
        List.Forall₂ (fun f f' => FrameInv f → FrameInv f') fs fs')
    ∧ (∀ (f : Frame) (field : String) (v : PyVal),
        field ∈ dictKeys f.fields → FrameInv f → FrameInv (elicitBind f field v))
    ∧ (∀ name, FrameInv (Frame.init name)) := by
  refine ⟨?_, ?_, ?_⟩
  · intro env fuel ws fs fs' h
    refine List.Forall₂.imp ?_ (processTokens_pres h)
    intro a b hab
    obtain ⟨_, _, _, hi⟩ := hab
    exact hi
  · intro f field v hf hinv k hk
    simp only [elicitBind] at hk ⊢
    rcases mem_keys_insert.mp hk with rfl | hk2
    · exact hf
    · exact hinv k hk2
  · intro name k hk
    simp [Frame.init, dictKeys] at hk

/-- C9. Frame.store raises a duplicate-name KeyError exactly when the
name is already registered; on the error the registry is unchanged,
and on success the frame is retrievable under its name. -/
theorem c9_store_characterization (reg : FrameStorage) (f : Frame) :
    ((∃ e, (Frame.store reg f).1 = .error e) ↔ dictHas reg f.name = true)
    ∧ (∀ e, (Frame.store reg f).1 = .error e → (Frame.store reg f).2 = reg)
    ∧ ((Frame.store reg f).1 = .ok () → dictGet (Frame.store reg f).2 f.name = some f) := by
  unfold Frame.store
  by_cases h : dictHas reg f.name
  · simp [h]
  · simp [h, dictGet_insert_self]

/-! Lemmas about the frame realization loop. -/

theorem resolveName_neither {reg loc : FrameStorage} {n : String}
    (hg : Frame.has reg n = false) (hl : dictGet loc n = none) :
    resolveName reg loc n = .ok [] := by
  simp [resolveName, hg, hl]

theorem resolveName_local {reg loc : FrameStorage} {n : String} {lf : Frame}
    (hg : Frame.has reg n = false) (hl : dictGet loc n = some lf) :
    resolveName reg loc n = .ok [lf] := by
  simp [resolveName, hg, hl]

theorem resolveName_global {reg loc : FrameStorage} {n : String} {tf c : Frame}
    (hg : dictGet reg n = some tf) (hc : Frame.copy tf = .ok c)
    (hl : dictGet loc n = none) :
    resolveName reg loc n = .ok [c] := by
  have hh : Frame.has reg n = true := by
    simp [Frame.has, dictHas, hg]
  simp [resolveName, hh, Frame.get, hg, hc, hl]

theorem resolveName_both {reg loc : FrameStorage} {n : String} {tf c lf : Frame}
    (hg : dictGet reg n = some tf) (hc : Frame.copy tf = .ok c)
    (hl : dictGet loc n = some lf) :
    resolveName reg loc n = .ok [c, lf] := by
  have hh : Frame.has reg n = true := by
    simp [Frame.has, dictHas, hg]
  simp [resolveName, hh, Frame.get, hg, hc, hl]

theorem realizeFrames_singleton {reg loc : FrameStorage} {n : String} {here : List Frame}
    (h : resolveName reg loc n = .ok here) :
    realizeFrames reg loc [n] = .ok here := by
  simp [realizeFrames, h]

/-- C3 amended. The realization loop resolves one name to: nothing
when the name is neither registered nor local; the local instance
alone, with its accumulated bindings, when the name is only local; a
fresh copy of the global template alone when the name is only
registered (the copy succeeding); and BOTH the fresh copy and the
local instance, in that order, when the name is in both stores — not
exactly one instance. -/
theorem c3_resolution_cases (reg loc : FrameStorage) (n : String) :
    (Frame.has reg n = false → dictGet loc n = none →
      realizeFrames reg loc [n] = .ok [])
    ∧ (∀ lf, Frame.has reg n = false → dictGet loc n = some lf →
      realizeFrames reg loc [n] = .ok [lf])
    ∧ (∀ tf c, dictGet reg n = some tf → Frame.copy tf = .ok c → dictGet loc n = none →
      realizeFrames reg loc [n] = .ok [c])
    ∧ (∀ tf c lf, dictGet reg n = some tf → Frame.copy tf = .ok c → dictGet loc n = some lf →
      realizeFrames reg loc [n] = .ok [c, lf]) := by
  refine ⟨?_, ?_, ?_, ?_⟩
  · intro hg hl
    exact realizeFrames_singleton (resolveName_neither hg hl)
  · intro lf hg hl
    exact realizeFrames_singleton (resolveName_local hg hl)
  · intro tf c hg hc hl
    exact realizeFrames_singleton (resolveName_global hg hc hl)
  · intro tf c lf hg hc hl
    exact realizeFrames_singleton (resolveName_both hg hc hl)

theorem mem_dictInsert {α : Type} {d : Dict α} {k : String} {v : α} {kv : String × α}
    (h : kv ∈ dictInsert d k v) : kv = (k, v) ∨ kv ∈ d := by
  induction d with
  | nil =>
    simp [dictInsert] at h
    exact Or.inl h
  | cons kv1 rest ih =>
    obtain ⟨k1, v1⟩ := kv1
    by_cases hk : k1 = k
    · rw [show dictInsert ((k1, v1) :: rest) k v = (k, v) :: rest from by
        simp [dictInsert, hk]] at h
      rcases List.mem_cons.mp h with h | h
      · exact Or.inl h
      · exact Or.inr (List.mem_cons_of_mem _ h)
    · rw [show dictInsert ((k1, v1) :: rest) k v = (k1, v1) :: dictInsert rest k v from by
        simp [dictInsert, hk]] at h
      rcases List.mem_cons.mp h with h | h
      · exact Or.inr (by simp [h])
      · rcases ih h with h2 | h2
        · exact Or.inl h2
        · exact Or.inr (List.mem_cons_of_mem _ h2)

theorem dictUnpackCopyAux_vStr :
    ∀ (d acc out : Dict PyVal), dictUnpackCopyAux acc d = .ok out →
      (∀ kv ∈ acc, ∃ s, kv.2 = PyVal.vStr s) →
      ∀ kv ∈ out, ∃ s, kv.2 = PyVal.vStr s := by
  intro d
  induction d with
  | nil =>
    intro acc out h hacc
    simp [dictUnpackCopyAux] at h
    subst h
    exact hacc
  | cons kv0 rest ih =>
    intro acc out h hacc
    obtain ⟨k, v⟩ := kv0
    unfold dictUnpackCopyAux at h
    cases hu : strUnpack2 k with
    | error e => rw [hu] at h; simp at h
    | ok ab =>
      rw [hu] at h
      obtain ⟨a, b⟩ := ab
      refine ih (dictInsert acc a (.vStr b)) out h ?_
      intro kv hkv
      rcases mem_dictInsert hkv with h2 | h2
      · exact ⟨b, by simp [h2]⟩
      · exact hacc kv h2

theorem copy_fields_vStr {tf c : Frame} (h : Frame.copy tf = .ok c) :
    ∀ kv ∈ c.fields, ∃ s, kv.2 = PyVal.vStr s := by
  unfold Frame.copy at h
  cases h1 : dictUnpackCopy tf.fields with
  | error e => rw [h1] at h; simp at h
  | ok fs =>
    rw [h1] at h
    cases h2 : dictUnpackCopy tf.bindings with
    | error e => rw [h2] at h; simp at h
    | ok bs =>
      rw [h2] at h
      simp at h
      subst h
      exact dictUnpackCopyAux_vStr tf.fields [] fs h1 (by simp)

/-- C10 amended. When a frame name is both registered globally and
present locally, and the buggy copy of the template succeeds, the
realization loop yields two instances, the fresh copy then the local
instance. The call only rarely gets to return them: a successful copy
stores one-character strings where field filters belong, so as soon as
there is at least one token and the copy has at least one field the
matching loop raises AttributeError calling word_match on a string;
and a zero total field count raises ZeroDivisionError. When the loop
does complete with a nonzero total (for instance when the tokenizer
yields nothing), the ratio denominator is the field count of the copy
plus that of the local instance, and the returned mapping holds only
the updated local instance under the name, the local entry having
displaced the copy. -/
theorem c10_double_realization (env : Env) (fuel : Nat) (reg loc : FrameStorage)
    (n act answer : String) (tr : Bool) (tf c lf : Frame)
    (hg : dictGet reg n = some tf) (hc : Frame.copy tf = .ok c)
    (hl : dictGet loc n = some lf) (hcn : c.name = n) (hln : lf.name = n) :
    realizeFrames reg loc [n] = .ok [c, lf]
    ∧ (∀ w ws, env.tokenize answer = w :: ws → c.fields ≠ [] →
        Response.satisfy env fuel reg ⟨[n], act, tr⟩ answer loc
          = .error "AttributeError: word_match")
    ∧ (∀ c' lf', processTokens env fuel (env.tokenize answer) [c, lf] = .ok [c', lf'] →
        (c.fields.length + lf.fields.length = 0 →
          Response.satisfy env fuel reg ⟨[n], act, tr⟩ answer loc
            = .error "ZeroDivisionError: float division by zero")
        ∧ (c.fields.length + lf.fields.length ≠ 0 →
          Response.satisfy env fuel reg ⟨[n], act, tr⟩ answer loc
            = .ok (((satCount [c', lf'] : ℚ)
                    / ((c.fields.length + lf.fields.length : ℕ) : ℚ)),
                   [(n, lf')])
          ∧ dictGet [(n, lf')] n = some lf')) := by
  have hreal : realizeFrames reg loc [n] = .ok [c, lf] :=
    realizeFrames_singleton (resolveName_both hg hc hl)
  refine ⟨hreal, ?_, ?_⟩
  · intro w ws htok hne
    obtain ⟨kv, rest, hcf⟩ := List.exists_cons_of_ne_nil hne
    obtain ⟨k0, pv⟩ := kv
    obtain ⟨s0, hpv⟩ := copy_fields_vStr hc (k0, pv) (by rw [hcf]; exact List.mem_cons_self _ _)
    have hpv2 : pv = PyVal.vStr s0 := hpv
    subst hpv2
    have hframe : frameStep env fuel w c = .error "AttributeError: word_match" := by
      unfold frameStep
      rw [hcf]
      simp [fieldLoop, fieldStep]
    have hfs : framesStep env fuel w [c, lf] = .error "AttributeError: word_match" := by
      simp [framesStep, hframe]
    have hpt : processTokens env fuel (w :: ws) [c, lf]
        = .error "AttributeError: word_match" := by
      simp [processTokens, hfs]
    unfold Response.satisfy
    rw [hreal]
    simp only []
    rw [htok, hpt]
  · intro c' lf' hp
    have hpres := processTokens_pres hp
    have hcf : c'.fields = c.fields := by
      cases hpres with
      | cons h1 h2 => exact h1.2.1
    have hlf : lf'.fields = lf.fields := by
      cases hpres with
      | cons h1 h2 =>
        cases h2 with
        | cons h3 h4 => exact h3.2.1
    have hcn' : c'.name = n := by
      cases hpres with
      | cons h1 h2 => exact h1.1.trans hcn
    have hln' : lf'.name = n := by
      cases hpres with
      | cons h1 h2 =>
        cases h2 with
        | cons h3 h4 => exact h3.1.trans hln
    have htot : totalFields [c', lf'] = c.fields.length + lf.fields.length := by
      simp [totalFields, hcf, hlf]
    have hstore : framesToStorage [c', lf'] = [(n, lf')] := by
      simp [framesToStorage, dictInsert, hcn', hln']
    constructor
    · intro hz
      unfold Response.satisfy
      rw [hreal]
      simp only []
      rw [hp]
      simp only [htot]
      simp [hz]
    · intro hnz
      refine ⟨?_, by simp [dictGet]⟩
      unfold Response.satisfy
      rw [hreal]
      simp only []
      rw [hp]
      simp only [htot, hstore]
      simp [hnz]

/-- Witness for C10 amended, exercising both live cases on the same
realized pair: with the red-and-blue tokenizer the first token hits
the mangled string field of the copy and the whole call raises
AttributeError; with the empty tokenizer the loop completes, the
denominator is the two field counts added, and the mapping keeps only
the local instance. -/
theorem c10_double_realization_witness :
    realizeFrames [("pet", petAB)] [("pet", petColor)] ["pet"] = .ok [petABCopy, petColor]
    ∧ Response.satisfy envRB 0 [("pet", petAB)] ⟨["pet"], "continue", false⟩ "x"
        [("pet", petColor)] = .error "AttributeError: word_match"
    ∧ Response.satisfy envNoTok 0 [("pet", petAB)] ⟨["pet"], "continue", false⟩ "x"
        [("pet", petColor)]
      = .ok (((satCount [petABCopy, petColor] : ℚ)
              / ((petABCopy.fields.length + petColor.fields.length : ℕ) : ℚ)),
             [("pet", petColor)])
    ∧ dictGet [("pet", petColor)] "pet" = some petColor :=
  ⟨(c10_double_realization envRB 0 [("pet", petAB)] [("pet", petColor)]
      "pet" "continue" "x" false petAB petABCopy petColor
      rfl rfl rfl rfl rfl).1,
   (c10_double_realization envRB 0 [("pet", petAB)] [("pet", petColor)]
      "pet" "continue" "x" false petAB petABCopy petColor
      rfl rfl rfl rfl rfl).2.1 "red" ["blue"] rfl (by decide),
   ((c10_double_realization envNoTok 0 [("pet", petAB)] [("pet", petColor)]
      "pet" "continue" "x" false petAB petABCopy petColor
      rfl rfl rfl rfl rfl).2.2 petABCopy petColor rfl).2 (by decide)⟩

/-! Lemmas about the recursive hypernym search. -/

theorem foldl_or (g : Nat → Bool) :
    ∀ (l : List Nat) (b : Bool), l.foldl (fun m hp => m || g hp) b = (b || l.any g) := by
  intro l
  induction l with
  | nil => intro b; simp
  | cons x xs ih =>
    intro b
    rw [List.foldl_cons, ih (b || g x), List.any_cons, Bool.or_assoc]

theorem hypernym_search_succ (env : Env) (fltr : FieldFilter) (fuel s : Nat) :
    hypernym_search env fltr (fuel + 1) s
      = (fltr.sense_match env s || (env.hypernyms s).any (hypernym_search env fltr fuel)) := by
  by_cases h : fltr.sense_match env s
  · simp [hypernym_search, h]
  · have hu : hypernym_search env fltr (fuel + 1) s
        = (env.hypernyms s).foldl (fun m hp => m || hypernym_search env fltr fuel hp) false := by
      simp [hypernym_search, h]
    rw [hu, foldl_or (hypernym_search env fltr fuel)]
    simp [h]

theorem reaches_search (env : Env) (fltr : FieldFilter) (rank : Nat → Nat)
    (hrank : ∀ s h, h ∈ env.hypernyms s → rank h < rank s) :
    ∀ {s t : Nat}, Reaches env s t → fltr.sense_match env t = true →
      ∀ fuel, rank s < fuel → hypernym_search env fltr fuel s = true := by
  intro s t hreach
  induction hreach with
  | refl s =>
    intro hm fuel hf
    cases fuel with
    | zero => exact absurd hf (Nat.not_lt_zero _)
    | succ fuel =>
      rw [hypernym_search_succ]
      simp [hm]
  | step hmem hr ih =>
    intro hm fuel hf
    cases fuel with
    | zero => exact absurd hf (Nat.not_lt_zero _)
    | succ fuel =>
      rw [hypernym_search_succ]
      have hlt : rank _ < fuel :=
        Nat.lt_of_lt_of_le (hrank _ _ hmem) (Nat.lt_succ_iff.mp hf)
      have hs := ih hm fuel hlt
      simp [List.any_eq_true]
      right
      exact ⟨_, hmem, hs⟩

theorem hypernym_search_iff (env : Env) (fltr : FieldFilter) (rank : Nat → Nat)
    (hrank : ∀ s h, h ∈ env.hypernyms s → rank h < rank s) :
    ∀ (fuel s : Nat), rank s < fuel →
      (hypernym_search env fltr fuel s = true ↔
        ∃ t, Reaches env s t ∧ fltr.sense_match env t = true) := by
  intro fuel
  induction fuel with
  | zero =>
    intro s h
    exact absurd h (Nat.not_lt_zero _)
  | succ fuel ih =>
    intro s hs
    constructor
    · intro h
      rw [hypernym_search_succ] at h
      have h' : fltr.sense_match env s = true
          ∨ (env.hypernyms s).any (hypernym_search env fltr fuel) = true := by
        simpa using h
      rcases h' with hm | hany
      · exact ⟨s, Reaches.refl s, hm⟩
      · rcases List.any_eq_true.mp hany with ⟨hp, hmem, hsearch⟩
        have hlt : rank hp < fuel :=
          Nat.lt_of_lt_of_le (hrank _ _ hmem) (Nat.lt_succ_iff.mp hs)
        rcases (ih hp hlt).mp hsearch with ⟨t, hr, hm⟩
        exact ⟨t, Reaches.step hmem hr, hm⟩
    · rintro ⟨t, hr, hm⟩
      exact reaches_search env fltr rank hrank hr hm (fuel + 1) hs

/-- C6. Over any ontology certified finite and acyclic by a rank
function, and with fuel exceeding the rank of the starting sense, the
recursive hypernym search returns true exactly when some sense in the
reflexive-transitive hypernym closure of the starting sense satisfies
the sense restrictions of the filter: a direct hit succeeds, otherwise
the result is the disjunction of the searches from the direct
hypernyms, and a root without a hit yields false. -/
theorem c6_search_iff_closure (env : Env) (fltr : FieldFilter) (rank : Nat → Nat)
    (hrank : ∀ s h, h ∈ env.hypernyms s → rank h < rank s)
    (s fuel : Nat) (hf : rank s < fuel) :
    hypernym_search env fltr fuel s = true ↔
      ∃ t, Reaches env s t ∧ fltr.sense_match env t = true :=
  hypernym_search_iff env fltr rank hrank fuel s hf

/-- Witness for C6: a two-sense chain in which only the hypernym
carries the target lexname; the search from sense zero with ample
fuel is equivalent to the existence of a matching ancestor. -/
theorem c6_search_iff_closure_witness :
    hypernym_search envChain targetFilter 2 0 = true ↔
      ∃ t, Reaches envChain 0 t ∧ targetFilter.sense_match envChain t = true :=
  c6_search_iff_closure envChain targetFilter chainRank
    (by
      intro s h hmem
      by_cases hs : s = 0
      · subst hs
        simp [envChain] at hmem
        subst hmem
        simp [chainRank]
      · simp [envChain, hs] at hmem)
    0 2 (by simp [chainRank])

/-- C7. Over any ontology certified finite and acyclic by a rank
function, the search needs no more fuel than the rank bound: any two
sufficient fuels give the same value (the recursion terminates), and
when no sense in the closure of the starting sense satisfies the
filter the value is false. -/
theorem c7_search_terminates_false (env : Env) (fltr : FieldFilter) (rank : Nat → Nat)
    (hrank : ∀ s h, h ∈ env.hypernyms s → rank h < rank s)
    (s fuel1 fuel2 : Nat) (h1 : rank s < fuel1) (h2 : rank s < fuel2) :
    hypernym_search env fltr fuel1 s = hypernym_search env fltr fuel2 s
    ∧ ((∀ t, Reaches env s t → fltr.sense_match env t = false) →
        hypernym_search env fltr fuel1 s = false) := by
  have e1 := hypernym_search_iff env fltr rank hrank fuel1 s h1
  have e2 := hypernym_search_iff env fltr rank hrank fuel2 s h2
  constructor
  · by_cases hp : ∃ t, Reaches env s t ∧ fltr.sense_match env t = true
    · rw [e1.mpr hp, e2.mpr hp]
    · cases hb1 : hypernym_search env fltr fuel1 s with
      | true => exact absurd (e1.mp hb1) hp
      | false =>
        cases hb2 : hypernym_search env fltr fuel2 s with
        | true => exact absurd (e2.mp hb2) hp
        | false => rfl
  · intro hnone
    cases hb1 : hypernym_search env fltr fuel1 s with
    | true =>
      rcases e1.mp hb1 with ⟨t, hr, hm⟩
      rw [hnone t hr] at hm
      cases hm
    | false => rfl

/-- Witness for C7: on the two-sense chain with no matching lexname,
fuel two and fuel five agree, and the no-matching-ancestor hypothesis
yields false. -/
theorem c7_search_terminates_false_witness :
    hypernym_search envChainMiss targetFilter 2 0
      = hypernym_search envChainMiss targetFilter 5 0
    ∧ ((∀ t, Reaches envChainMiss 0 t → targetFilter.sense_match envChainMiss t = false) →
        hypernym_search envChainMiss targetFilter 2 0 = false) :=
  c7_search_terminates_false envChainMiss targetFilter chainRank
    (by
      intro s h hmem
      by_cases hs : s = 0
      · subst hs
        simp [envChainMiss] at hmem
        subst hmem
        simp [chainRank]
      · simp [envChainMiss, hs] at hmem)
    0 2 5 (by simp [chainRank]) (by simp [chainRank])

/-! Lemmas about the slot scanner and the rendering of Line.say. -/

theorem takeWhile_len_le (p : Char → Bool) :
    ∀ (l : List Char), (l.takeWhile p).length ≤ l.length := by
  intro l
  induction l with
  | nil => simp
  | cons c rest ih =>
    by_cases h : p c
    · simp only [List.takeWhile_cons, h, if_true, List.length_cons]
      omega
    · simp [List.takeWhile_cons, h]

theorem matchAt_spec {l : List Char} {n : Nat} (h : matchAt l = some n) :
    2 ≤ n ∧ n ≤ l.length
      ∧ (∀ c rest, l = c :: rest → isWs c = true → ∃ rest2, rest = '$' :: rest2) := by
  cases l with
  | nil => simp [matchAt] at h
  | cons c rest =>
    by_cases hw : isWs c
    · cases rest with
      | nil => simp [matchAt, hw] at h
      | cons c2 rest2 =>
        by_cases h2 : c2 = '$'
        · subst h2
          by_cases h0 : (rest2.takeWhile isRefChar).length = 0
          · simp [matchAt, hw, h0] at h
          · simp [matchAt, hw, h0] at h
            have hle := takeWhile_len_le isRefChar rest2
            refine ⟨by omega, by simp [← h]; omega, ?_⟩
            intro c' rest' heq hw'
            injection heq with hc' hr'
            exact ⟨rest2, hr'.symm⟩
        · simp [matchAt, hw, h2] at h
    · by_cases hd : c = '$'
      · subst hd
        by_cases h0 : (rest.takeWhile isRefChar).length = 0
        · simp [matchAt, hw, h0] at h
        · simp [matchAt, hw, h0] at h
          have hle := takeWhile_len_le isRefChar rest
          refine ⟨by omega, by simp [← h]; omega, ?_⟩
          intro c' rest' heq hw'
          injection heq with hc' hr'
          subst hc'
          simp [isWs] at hw'
      · simp [matchAt, hw, hd] at h

theorem findSlotsAux_mem :
    ∀ (cs : List Char) (i skip s e : Nat), (s, e) ∈ findSlotsAux cs i skip →
      i ≤ s ∧ matchAt (cs.drop (s - i)) = some (e - s) := by
  intro cs
  induction cs with
  | nil =>
    intro i skip s e h
    simp [findSlotsAux] at h
  | cons c rest ih =>
    intro i skip s e h
    cases skip with
    | succ skip' =>
      have hstep : findSlotsAux (c :: rest) i (skip' + 1) = findSlotsAux rest (i + 1) skip' := by
        simp [findSlotsAux]
      rw [hstep] at h
      obtain ⟨hle, hm⟩ := ih (i + 1) skip' s e h
      refine ⟨by omega, ?_⟩
      have h1 : s - i = (s - (i + 1)) + 1 := by omega
      rw [h1, List.drop_succ_cons]
      exact hm
    | zero =>
      cases hma : matchAt (c :: rest) with
      | some m =>
        have hstep : findSlotsAux (c :: rest) i 0
            = (i, i + m) :: findSlotsAux rest (i + 1) (m - 1) := by
          simp [findSlotsAux, hma]
        rw [hstep] at h
        rcases List.mem_cons.mp h with heq | h2
        · injection heq with hs he
          subst hs
          subst he
          refine ⟨Nat.le_refl _, ?_⟩
          simp only [Nat.sub_self, List.drop_zero, Nat.add_sub_cancel_left]
          exact hma
        · obtain ⟨hle, hm⟩ := ih (i + 1) (m - 1) s e h2
          refine ⟨by omega, ?_⟩
          have h1 : s - i = (s - (i + 1)) + 1 := by omega
          rw [h1, List.drop_succ_cons]
          exact hm
      | none =>
        have hstep : findSlotsAux (c :: rest) i 0 = findSlotsAux rest (i + 1) 0 := by
          simp [findSlotsAux, hma]
        rw [hstep] at h
        obtain ⟨hle, hm⟩ := ih (i + 1) 0 s e h
        refine ⟨by omega, ?_⟩
        have h1 : s - i = (s - (i + 1)) + 1 := by omega
        rw [h1, List.drop_succ_cons]
        exact hm

theorem findSlots_spec {cs : List Char} {s e : Nat} (h : (s, e) ∈ findSlots cs) :
    matchAt (cs.drop s) = some (e - s) ∧ s + 2 ≤ e ∧ e ≤ cs.length := by
  obtain ⟨h0, hm⟩ := findSlotsAux_mem cs 0 0 s e h
  rw [Nat.sub_zero] at hm
  obtain ⟨h2, hlen, _⟩ := matchAt_spec hm
  have hd : (cs.drop s).length = cs.length - s := List.length_drop s cs
  rw [hd] at hlen
  exact ⟨hm, by omega, by omega⟩

/-- C5 amended. A line with no slot references renders exactly as its
source text; and a line whose scan finds exactly one slot, the slot
preceded by a whitespace character, renders as the text before and
including that whitespace, then the bound value, then the text after
the reference — an exact in-place substitution, the reference being
the slice from the character after the whitespace (a dollar sign)
through the match end. (With several slots, or a slot not preceded by
whitespace, rendering is NOT exact, as the counterexample shows.) -/
theorem c5_single_slot_render (reg loc : FrameStorage) (text : String) (s e : Nat)
    (n f v : String) (c : Char)
    (h1 : findSlots text.data = [(s, e)])
    (hc : text.data[s]? = some c) (hw : isWs c = true)
    (hr : refOf text.data (s, e) = [n, f])
    (hv : getPlug reg loc (n, f) = .ok v) :
    Line.say reg text loc = .ok (⟨text.data.take (s + 1)⟩ ++ v ++ ⟨text.data.drop e⟩)
    ∧ text = ⟨text.data.take (s + 1)⟩ ++ ⟨pySlice text.data (s + 1) e⟩ ++ ⟨text.data.drop e⟩
    ∧ text.data[s + 1]? = some '$' := by
  have hmem : (s, e) ∈ findSlots text.data := by
    rw [h1]
    exact List.mem_singleton.mpr rfl
  obtain ⟨hm, hse, hel⟩ := findSlots_spec hmem
  have hdol : text.data[s + 1]? = some '$' := by
    have hgd : (text.data.drop s)[0]? = some c := by
      rw [List.getElem?_drop]
      simpa using hc
    cases hds : text.data.drop s with
    | nil =>
      rw [hds] at hgd
      simp at hgd
    | cons c0 rest =>
      rw [hds] at hgd
      simp at hgd
      subst hgd
      rw [hds] at hm
      obtain ⟨_, _, h3⟩ := matchAt_spec hm
      obtain ⟨rest2, hrest⟩ := h3 c0 rest rfl hw
      have hone : (text.data.drop s)[1]? = some '$' := by
        rw [hds, hrest]
        simp
      rw [List.getElem?_drop] at hone
      simpa using hone
  have hsay : Line.say reg text loc
      = .ok ((⟨pySlice text.data 0 (s + 1)⟩ ++ v ++ "") ++ ⟨text.data.drop e⟩) := by
    unfold Line.say
    rw [h1]
    simp only [List.map_cons, List.map_nil, hr]
    simp only [unpackPairs]
    simp only [getPlugs, hv]
    simp only [renderLoop, lastStop, List.zip_cons_cons, List.zip_nil_right]
  refine ⟨?_, ?_, hdol⟩
  · rw [hsay]
    congr 1
    apply String.ext
    simp [pySlice, String.data_append]
  · apply String.ext
    have h4 : text.data.take e = text.data.take (s + 1) ++ (text.data.take e).drop (s + 1) := by
      conv_lhs => rw [← List.take_append_drop (s + 1) (text.data.take e)]
      rw [List.take_take, min_eq_left (by omega)]
    calc text.data
        = text.data.take e ++ text.data.drop e := (List.take_append_drop e text.data).symm
      _ = (text.data.take (s + 1) ++ (text.data.take e).drop (s + 1)) ++ text.data.drop e := by
          rw [← h4]
      _ = (⟨text.data.take (s + 1)⟩ ++ ⟨pySlice text.data (s + 1) e⟩ ++ ⟨text.data.drop e⟩ :
            String).data := by
          simp [pySlice, String.data_append]

/-- Witness for C5 amended at the concrete line of the specification:
the slot of the example line sits at offsets nine to twenty-two after
the whitespace at offset nine, and rendering substitutes cat in
place. -/
theorem c5_single_slot_render_witness :
    Line.say [] "My pet is $pet.species" [("pet", petBound)]
      = .ok (⟨("My pet is $pet.species").data.take 10⟩ ++ "cat"
             ++ ⟨("My pet is $pet.species").data.drop 22⟩)
    ∧ "My pet is $pet.species"
      = ⟨("My pet is $pet.species").data.take 10⟩
        ++ ⟨pySlice ("My pet is $pet.species").data 10 22⟩
        ++ ⟨("My pet is $pet.species").data.drop 22⟩
    ∧ ("My pet is $pet.species").data[10]? = some '$' :=
  c5_single_slot_render [] [("pet", petBound)] "My pet is $pet.species" 9 22
    "pet" "species" "cat" ' ' rfl rfl rfl rfl rfl

end ScriptBot
